import Mathlib

/-!
Verification of the sparse-table range-minimum-query (RMQ) and Euler-tour
lowest-common-ancestor (LCA) algorithms of this repository (src/RMQ.hpp,
src/lca.hpp, src/algorithms.hpp), as a shallow embedding in Lean.

Sequences are modelled as `List ℕ`; C++ random-access iterators into the
input sequence are modelled as natural-number indices, so dereferencing an
iterator `it` becomes `A.getD it 0`.  All index arithmetic is on `ℕ` with
truncated subtraction, matching the unsigned C++ arithmetic on the valid
domains the claims quantify over.
-/

namespace GraphAlgorithms

/-- Modelled from the spec: `lower_log2` (the helper `general::lower_log2`
is not among the given source files).  The spec uses `⌊log2 ·⌋`
("let k = ⌊log2(j − i + 1)⌋", levels run "from 1 to ⌊log2 n⌋"), and the
repository's own unit test pins `log2 10000 = 13`.  Implemented with
structural fuel so that it computes by kernel reduction; shown equal to
`Nat.log2` below. -/
def log2fuel : ℕ → ℕ → ℕ
  | 0, _ => 0
  | fuel + 1, n => if 2 ≤ n then log2fuel fuel (n / 2) + 1 else 0

/-- Modelled from the spec: `⌊log2 n⌋`. -/
def lower_log2 (n : ℕ) : ℕ := log2fuel n n

/-- Modelled from the spec: `pow2 j = 2^j` (helper `general::pow2`, not among
the given source files; the spec's window lengths are `2^j`). -/
def pow2 (j : ℕ) : ℕ := 2 ^ j

/-! ## The 2D sparse-table builder (`index_preprocess_sparse_table`, src/RMQ.hpp)

The C++ writes into a 2D array `M[j][i]`, rows `j = 1 .. ⌊log2 n⌋`.  Row `j`
is embedded as the list `levelList A j`; the whole table as the list of rows
(row `j` stored at position `j - 1`). -/

/-- Level 1 of the table: `M[1][i] = A[i] <= A[i+1] ? i : i + 1` for
`i = 0 .. A.size() - 2` (the first loop of `index_preprocess_sparse_table`). -/
def level1 (A : List ℕ) : List ℕ :=
  (List.range (A.length - 1)).map fun i =>
    if A.getD i 0 ≤ A.getD (i + 1) 0 then i else i + 1

/-- One level-building step: entry `i` of the new level is
`A[M2] < A[M1] ? M2 : M1` with `M1 = prev[i]`, `M2 = prev[i + half]`
(the inner loop of `index_preprocess_sparse_table`, `half = 2^(j-1)`,
`len = n - 2^j + 1`). -/
def levelStep (A prev : List ℕ) (half len : ℕ) : List ℕ :=
  (List.range len).map fun i =>
    let M1 := prev.getD i 0
    let M2 := prev.getD (i + half) 0
    if A.getD M2 0 < A.getD M1 0 then M2 else M1

/-- Row `j` of the 2D sparse table over `A`, as assigned by
`index_preprocess_sparse_table` (row 0 is never written by the code). -/
def levelList (A : List ℕ) : ℕ → List ℕ
  | 0 => []
  | 1 => level1 A
  | j + 2 => levelStep A (levelList A (j + 1)) (pow2 (j + 1)) (A.length - pow2 (j + 2) + 1)

/-- `index_preprocess_sparse_table` (src/RMQ.hpp lines 54-86): under the
guard `A.size() > 2`, build rows `1 .. ⌊log2 n⌋`; otherwise write nothing. -/
def index_preprocess_sparse_table (A : List ℕ) : List (List ℕ) :=
  if 2 < A.length then (List.range' 1 (lower_log2 A.length)).map (levelList A) else []

/-- Read `M[j][i]` of the built 2D table (row `j` is stored at position
`j - 1`). -/
def tableEntry (M : List (List ℕ)) (j i : ℕ) : ℕ := (M.getD (j - 1) []).getD i 0

/-- `k` is the position of the leftmost minimum of `A` on the closed index
interval `[lo, hi]`. -/
def IsLeftmostMin (A : List ℕ) (lo hi k : ℕ) : Prop :=
  lo ≤ k ∧ k ≤ hi ∧ (∀ m, lo ≤ m → m ≤ hi → A.getD k 0 ≤ A.getD m 0) ∧
    ∀ m, lo ≤ m → m < k → A.getD k 0 < A.getD m 0

/-- Number of valid positions of level `l` over an input of length `n`. -/
def levelLen (n l : ℕ) : ℕ := n - 2 ^ l + 1

/-- Flat offset at which level `l` starts: the summed sizes of levels
`1 .. l - 1`. -/
def levelStart (n l : ℕ) : ℕ := ((List.range' 1 (l - 1)).map (levelLen n)).sum

/-- Levels `1 .. L` laid out contiguously. -/
def levelsFlat (A : List ℕ) (L : ℕ) : List ℕ :=
  ((List.range' 1 L).map (levelList A)).flatten

/-! ## The flat (append-only) sparse-table builder (`preprocess_sparse_table`)

The C++ stores iterators into the input range in one flat vector `M`,
appending level after level; iterators are modelled as indices.  The builder
is embedded with an explicit initial content `M0` of the caller's output
container, because the code only ever calls `M.push_back`. -/

/-- One iteration of the outer loop of `preprocess_sparse_table`
(src/RMQ.hpp lines 114-127): with `bl2 = block_length_2 = 2^(j-1)`, append
`last_pos = n - 2*bl2 + 1` entries, reading the previous level at
`Mi = M.size() - (n - bl2 + 1)` (all reads are below the initial size, so
reading the pre-step list is exact). -/
def flatAppendStep (A : List ℕ) (n bl2 : ℕ) (M : List ℕ) : List ℕ :=
  let Mi := M.length - (n - bl2 + 1)
  M ++ (List.range (n - 2 * bl2 + 1)).map fun i =>
    let M1 := M.getD (Mi + i) 0
    let M2 := M.getD (Mi + i + bl2) 0
    if A.getD M2 0 < A.getD M1 0 then M2 else M1

/-- The outer loop of `preprocess_sparse_table`: `steps` remaining
iterations, doubling `bl2` each time. -/
def flatLoop (A : List ℕ) (n : ℕ) : ℕ → ℕ → List ℕ → List ℕ
  | 0, _, M => M
  | steps + 1, bl2, M => flatLoop A n steps (2 * bl2) (flatAppendStep A n bl2 M)

/-- `preprocess_sparse_table` (src/RMQ.hpp lines 99-129) started on output
container content `M0`: under the guard that the range has at least three
elements, push the level-1 entries, set `n = M.size() + 1` (as the code
does - this equals the input length only when `M0` is empty), then run the
outer loop for `j = 2 .. lower_log2 n` starting from `block_length_2 = 2`. -/
def preprocess_sparse_table_from (A M0 : List ℕ) : List ℕ :=
  if 3 ≤ A.length then
    let M1 := M0 ++ level1 A
    let n := M1.length + 1
    flatLoop A n (lower_log2 n - 1) 2 M1
  else M0

/-- `preprocess_sparse_table` on an empty output container (the usual call). -/
def preprocess_sparse_table (A : List ℕ) : List ℕ :=
  preprocess_sparse_table_from A []

/-- `translate_sparse_table` (src/RMQ.hpp lines 132-141): flat offset of
logical pair (position `i`, level `j`) for input size `n`. -/
def translate_sparse_table (i j n : ℕ) : ℕ :=
  if j = 1 then i else (j - 1) * n - (pow2 j - j - 1) + i

/-! ## The queries -/

/-- `query_sparse_table` (src/RMQ.hpp lines 156-175).  The C++ returns an
iterator (`C::value_type`) and compares by dereferencing (`*My < *Mx`);
iterators are indices here, so the input sequence `A` is passed to model the
dereference.  The code's unsigned `j - pow2(k) + 1` is written `j + 1 -
pow2 k`: the two agree exactly when `2^k ≤ j + 1`, which `2^k ≤ j - i + 1`
(the defining property of `k`) guarantees on every valid query, and `ℕ`
subtraction truncates where unsigned arithmetic wraps. -/
def query_sparse_table (A : List ℕ) (i j n : ℕ) (sparse_table : List ℕ) : ℕ :=
  if i = j then sparse_table.getD i 0
  else
    let k := lower_log2 (j - i + 1)
    let x := translate_sparse_table i k n
    let y := translate_sparse_table (j + 1 - pow2 k) k n
    let Mx := sparse_table.getD x 0
    let My := sparse_table.getD y 0
    if A.getD My 0 < A.getD Mx 0 then My else Mx

/-- The position `i + (r - 2 * k)` at which `index_query_sparse_table` reads
its second table entry (src/RMQ.hpp line 192), with `r = j - i + 1` and
`k = lower_log2 r`. -/
def index_query_y_index (i j : ℕ) : ℕ :=
  i + ((j - i + 1) - 2 * lower_log2 (j - i + 1))

/-- `index_query_sparse_table` (src/RMQ.hpp lines 178-195): query on the 2D
index table; note the code reads `M[k][i + (r - 2 * k)]`. -/
def index_query_sparse_table (i j : ℕ) (A : List ℕ) (M : List (List ℕ)) : ℕ :=
  if i = j then i
  else
    let k := lower_log2 (j - i + 1)
    let x := (M.getD (k - 1) []).getD i 0
    let y := (M.getD (k - 1) []).getD (index_query_y_index i j) 0
    if A.getD y 0 < A.getD x 0 then y else x

/-- The two-window query rule in the spec's words (4.2): compare `M[k][i]`
and `M[k][j - 2^k + 1]` by their referenced values, left operand winning
ties.  Stated for the refinement comparison of the flat layout against the
2D layout; it differs from the source's `index_query_sparse_table` exactly
in the second window's start (`j - 2^k + 1` is written `j + 1 - pow2 k`,
the same value whenever `2^k ≤ j + 1`). -/
def index_query_spec (A : List ℕ) (i j : ℕ) (M : List (List ℕ)) : ℕ :=
  if i = j then i
  else
    let k := lower_log2 (j - i + 1)
    let x := (M.getD (k - 1) []).getD i 0
    let y := (M.getD (k - 1) []).getD (j + 1 - pow2 k) 0
    if A.getD y 0 < A.getD x 0 then y else x

/-! ## `representative_element` (src/algorithms.hpp) -/

/-- The loop of the counted overload `representative_element(first, n,
result)` (src/algorithms.hpp lines 31-47): scan positions in order, output
the position of each element not yet in `seen` and insert it. -/
def repElemCounted : List ℕ → ℕ → List ℕ → List ℕ
  | [], _, _ => []
  | x :: rest, i, seen =>
    if x ∈ seen then repElemCounted rest (i + 1) seen
    else i :: repElemCounted rest (i + 1) (x :: seen)

/-- The counted overload run over a whole sequence (`n = |E|`). -/
def representative_element (E : List ℕ) : List ℕ := repElemCounted E 0 []

/-- The loop of the iterator-range overload `representative_element(first,
last, result)` (src/algorithms.hpp lines 50-67): the code increments `first`
both in the loop head and at the end of the body, so each iteration
consumes TWO elements while `n` advances by one.  (When exactly one element
remains, the C++ would step an iterator past `last`; the model stops at the
end of the list instead, which is exact for even-length inputs.) -/
def repElemRange : List ℕ → ℕ → List ℕ → List ℕ
  | [], _, _ => []
  | [x], n, seen => if x ∈ seen then [] else [n]
  | x :: _ :: rest, n, seen =>
    if x ∈ seen then repElemRange rest (n + 1) seen
    else n :: repElemRange rest (n + 1) (x :: seen)

/-- The iterator-range overload run over a whole sequence. -/
def representative_element_range (E : List ℕ) : List ℕ := repElemRange E 0 []

/-! ## The LCA machinery (src/lca.hpp)

The depth-first traversal and its two visitors (`make_eulerian_path`,
`make_vertex_depth`, from graph_visitors.hpp) and the `element_index`
transformer (transformers.hpp) are not among the given source files; they
are modelled from the spec. -/

/-- A rooted tree with natural-number vertex labels. -/
inductive RTree : Type where
  | node : ℕ → List RTree → RTree

mutual
/-- Modelled from the spec (4.3): the Euler tour of a rooted tree records
the current vertex on first visit and on every return to it after finishing
a child subtree. -/
def eulerTour : RTree → List ℕ
  | .node v kids => v :: eulerKids v kids

/-- Tour fragments of the children of a vertex `v`, each followed by the
return visit to `v`. -/
def eulerKids : ℕ → List RTree → List ℕ
  | _, [] => []
  | v, c :: cs => eulerTour c ++ v :: eulerKids v cs
end

mutual
/-- Modelled from the spec (4.3): the depth sequence parallel to the Euler
tour (root depth 0). -/
def depthList : ℕ → RTree → List ℕ
  | d, .node _ kids => d :: depthKids d kids

/-- Depth fragments of the children of a vertex at depth `d`. -/
def depthKids : ℕ → List RTree → List ℕ
  | _, [] => []
  | d, c :: cs => depthList (d + 1) c ++ d :: depthKids d cs
end

/-- Modelled from the spec (4.4): the representative map built by
`std::transform(E, R, element_index())` with first-insert-wins map
semantics, so `R v` is the smallest index `k` with `E[k] = v`. -/
def firstOccurrence (E : List ℕ) (v : ℕ) : ℕ := E.indexOf v

/-- The tuple `(E, L, R, M)` produced by `lca_preprocess`. -/
structure LCAIndex where
  E : List ℕ
  L : List ℕ
  R : ℕ → ℕ
  M : List ℕ

/-- `lca_preprocess` (src/lca.hpp lines 64-89) on initially empty output
containers: the Euler tour `E`, the depth sequence `L`, the representative
map `R`, and the flat sparse table `M` over `L`. -/
def lca_preprocess (t : RTree) : LCAIndex :=
  let E := eulerTour t
  let L := depthList 0 t
  ⟨E, L, firstOccurrence E, preprocess_sparse_table L⟩

/-- `lca_preprocess` with caller-supplied initial content in the output
containers `E`, `L` and `M` (`depth_first_search` appends through
`std::back_inserter`, the table through `push_back`). -/
def lca_preprocess_from (t : RTree) (E0 L0 M0 : List ℕ) :
    List ℕ × List ℕ × List ℕ :=
  let E := E0 ++ eulerTour t
  let L := L0 ++ depthList 0 t
  (E, L, preprocess_sparse_table_from L M0)

/-- `lca_query` (src/lca.hpp lines 102-114): `i = R[u]`, `j = R[v]`, swap so
`i ≤ j`, run the flat sparse-table query over `L` (the container overload
passes `n = |L|`, per the spec's `query_sparse_table(i, j, [n,] Table)`
interface), and index the tour with the result. -/
def lca_query (u v : ℕ) (E L : List ℕ) (R : ℕ → ℕ) (M : List ℕ) : ℕ :=
  let i := R u
  let j := R v
  let i2 := if j < i then j else i
  let j2 := if j < i then i else j
  E.getD (query_sparse_table L i2 j2 L.length M) 0

/-- The concrete scenario tree of the spec (section 8): edges
`0→1, 0→2, 1→3, 1→4`, root 0. -/
def specTree : RTree :=
  .node 0 [.node 1 [.node 3 [], .node 4 []], .node 2 []]

/-! ## Basic facts about `lower_log2` -/

lemma log2fuel_eq (fuel n : ℕ) (h : n ≤ fuel) : log2fuel fuel n = Nat.log2 n := by
  induction fuel generalizing n with
  | zero =>
    interval_cases n
    simp [log2fuel, Nat.log2]
  | succ fuel ih =>
    rw [log2fuel, Nat.log2]
    by_cases h2 : 2 ≤ n
    · rw [if_pos h2, if_pos h2, ih]
      omega
    · rw [if_neg h2, if_neg h2]

lemma lower_log2_eq (n : ℕ) : lower_log2 n = Nat.log2 n :=
  log2fuel_eq n n le_rfl

lemma le_lower_log2_iff {n k : ℕ} (h : n ≠ 0) : k ≤ lower_log2 n ↔ 2 ^ k ≤ n := by
  rw [lower_log2_eq, Nat.le_log2 h]

lemma pow_lower_log2_le {n : ℕ} (h : n ≠ 0) : 2 ^ lower_log2 n ≤ n :=
  (le_lower_log2_iff h).mp le_rfl

lemma lt_pow_lower_log2_succ {n : ℕ} (h : n ≠ 0) : n < 2 ^ (lower_log2 n + 1) := by
  by_contra hc
  have := (le_lower_log2_iff h).mpr (not_lt.mp hc)
  omega

/-! ## The leftmost-minimum invariant of the 2D builder -/

lemma getD_range_map {f : ℕ → ℕ} {len i : ℕ} (h : i < len) (d : ℕ) :
    ((List.range len).map f).getD i d = f i := by
  rw [List.getD_eq_getElem?_getD, List.getElem?_map, List.getElem?_range h]
  rfl

lemma levelList_length (A : List ℕ) (j : ℕ) (hj : 1 ≤ j) (hn : 2 ≤ A.length) :
    (levelList A j).length = levelLen A.length j := by
  match j, hj with
  | 1, _ => simp [levelList, level1, levelLen]; omega
  | j + 2, _ => simp [levelList, levelStep, pow2, levelLen]

/-- Choosing between the leftmost minima of two adjacent intervals by
`A[k2] < A[k1] ? k2 : k1` yields the leftmost minimum of the union. -/
lemma IsLeftmostMin.combine {A : List ℕ} {lo mid lo2 hi k1 k2 : ℕ}
    (h1 : IsLeftmostMin A lo mid k1) (h2 : IsLeftmostMin A lo2 hi k2)
    (hlo2 : lo2 = mid + 1) :
    IsLeftmostMin A lo hi (if A.getD k2 0 < A.getD k1 0 then k2 else k1) := by
  subst hlo2
  obtain ⟨hk1lo, hk1hi, hmin1, hstrict1⟩ := h1
  obtain ⟨hk2lo, hk2hi, hmin2, hstrict2⟩ := h2
  split
  case isTrue hlt =>
    refine ⟨by omega, hk2hi, ?_, ?_⟩
    · intro m hm1 hm2
      by_cases hmid : m ≤ mid
      · exact le_of_lt (lt_of_lt_of_le hlt (hmin1 m hm1 hmid))
      · exact hmin2 m (by omega) hm2
    · intro m hm1 hm2
      by_cases hmid : m ≤ mid
      · exact lt_of_lt_of_le hlt (hmin1 m hm1 hmid)
      · exact hstrict2 m (by omega) hm2
  case isFalse hge =>
    refine ⟨hk1lo, by omega, ?_, ?_⟩
    · intro m hm1 hm2
      by_cases hmid : m ≤ mid
      · exact hmin1 m hm1 hmid
      · exact le_trans (not_lt.mp hge) (hmin2 m (by omega) hm2)
    · intro m hm1 hm2
      exact hstrict1 m hm1 hm2

/-- Main invariant of the 2D builder: every written entry of row `j` is the
leftmost minimum of its window `A[i .. i + 2^j - 1]`. -/
lemma levelList_isLeftmostMin (A : List ℕ) :
    ∀ j, 1 ≤ j → ∀ i, i + 2 ^ j ≤ A.length →
      IsLeftmostMin A i (i + 2 ^ j - 1) ((levelList A j).getD i 0)
  | 0, h, _, _ => absurd h (by omega)
  | 1, _, i, hi => by
    have hlen : i < A.length - 1 := by omega
    rw [levelList, level1, getD_range_map hlen]
    split
    case isTrue hle =>
      refine ⟨le_rfl, by omega, ?_, by omega⟩
      intro m hm1 hm2
      have : m = i ∨ m = i + 1 := by omega
      rcases this with rfl | rfl
      · exact le_rfl
      · exact hle
    case isFalse hgt =>
      refine ⟨by omega, by omega, ?_, ?_⟩
      · intro m hm1 hm2
        have : m = i ∨ m = i + 1 := by omega
        rcases this with rfl | rfl
        · exact le_of_lt (not_le.mp hgt)
        · exact le_rfl
      · intro m hm1 hm2
        have : m = i := by omega
        subst this
        exact not_le.mp hgt
  | j + 2, _, i, hi => by
    have hone := Nat.one_le_two_pow (n := j + 2)
    have hlen : i < A.length - pow2 (j + 2) + 1 := by
      simp only [pow2]; omega
    rw [levelList, levelStep, getD_range_map hlen]
    have hpow : 2 ^ (j + 2) = 2 ^ (j + 1) + 2 ^ (j + 1) := by
      rw [pow_succ]; omega
    have h1 := levelList_isLeftmostMin A (j + 1) (by omega) i (by omega)
    have h2 := levelList_isLeftmostMin A (j + 1) (by omega) (i + 2 ^ (j + 1)) (by omega)
    have hone1 := Nat.one_le_two_pow (n := j + 1)
    have hcomb := h1.combine (A := A) h2 (by omega)
    have hhi : i + 2 ^ (j + 1) + 2 ^ (j + 1) - 1 = i + 2 ^ (j + 2) - 1 := by omega
    rw [hhi] at hcomb
    simpa [pow2] using hcomb

/-! ## The flat layout refines the 2D layout -/

lemma levelStart_one (n : ℕ) : levelStart n 1 = 0 := by
  simp [levelStart]

lemma levelStart_succ (n l : ℕ) (hl : 1 ≤ l) :
    levelStart n (l + 1) = levelStart n l + levelLen n l := by
  obtain ⟨m, rfl⟩ : ∃ m, l = m + 1 := ⟨l - 1, by omega⟩
  show ((List.range' 1 (m + 1)).map (levelLen n)).sum = _
  rw [List.range'_concat, List.map_append, List.sum_append]
  simp [levelStart, Nat.add_comm]

lemma levelStart_mono (n : ℕ) {l L : ℕ} (h : l ≤ L) :
    levelStart n l ≤ levelStart n L := by
  induction L with
  | zero =>
    have : l = 0 := by omega
    subst this
    exact le_rfl
  | succ L ih =>
    rcases Nat.lt_or_ge l (L + 1) with hlt | hge
    · have hle := ih (by omega)
      by_cases hL : 1 ≤ L
      · rw [levelStart_succ n L hL]
        omega
      · have hL0 : L = 0 := by omega
        have hl0 : l = 0 := by omega
        subst hL0 hl0
        simp [levelStart]
    · have : l = L + 1 := by omega
      subst this
      exact le_rfl

lemma levelsFlat_succ (A : List ℕ) (L : ℕ) :
    levelsFlat A (L + 1) = levelsFlat A L ++ levelList A (L + 1) := by
  rw [levelsFlat, List.range'_concat, List.map_append, List.flatten_append]
  simp [levelsFlat, Nat.add_comm]

lemma levelsFlat_length (A : List ℕ) (hA : 2 ≤ A.length) (L : ℕ) :
    (levelsFlat A L).length = levelStart A.length (L + 1) := by
  induction L with
  | zero => simp [levelsFlat, levelStart]
  | succ L ih =>
    rw [levelsFlat_succ, List.length_append, ih,
      levelStart_succ A.length (L + 1) (by omega),
      levelList_length A (L + 1) (by omega) hA]

lemma levelsFlat_getD (A : List ℕ) (hA : 2 ≤ A.length) :
    ∀ L l i, 1 ≤ l → l ≤ L → i < levelLen A.length l →
      (levelsFlat A L).getD (levelStart A.length l + i) 0 = (levelList A l).getD i 0 := by
  intro L
  induction L with
  | zero =>
    intro l i h1 h2 _
    omega
  | succ L ih =>
    intro l i hl hlL hi
    rw [levelsFlat_succ]
    rcases Nat.lt_or_ge l (L + 1) with hcase | hcase
    · have hpos : levelStart A.length l + i < (levelsFlat A L).length := by
        rw [levelsFlat_length A hA L]
        have h1 : levelStart A.length (l + 1) ≤ levelStart A.length (L + 1) :=
          levelStart_mono _ (by omega)
        rw [levelStart_succ _ _ hl] at h1
        omega
      rw [List.getD_append _ _ _ _ hpos]
      exact ih l i hl (by omega) hi
    · have hel : l = L + 1 := by omega
      subst hel
      have hlen : (levelsFlat A L).length ≤ levelStart A.length (L + 1) + i := by
        rw [levelsFlat_length A hA]
        omega
      rw [List.getD_append_right _ _ _ _ hlen]
      have hidx : levelStart A.length (L + 1) + i - (levelsFlat A L).length = i := by
        rw [levelsFlat_length A hA]
        omega
      rw [hidx]

lemma flatAppendStep_levelsFlat (A : List ℕ) (hA : 2 ≤ A.length) (l : ℕ) (hl : 1 ≤ l)
    (h : 2 ^ (l + 1) ≤ A.length) :
    flatAppendStep A A.length (2 ^ l) (levelsFlat A l) = levelsFlat A (l + 1) := by
  have hpow : 2 ^ (l + 1) = 2 ^ l + 2 ^ l := by
    rw [pow_succ]
    omega
  have hone := Nat.one_le_two_pow (n := l)
  have hstep : levelList A (l + 1)
      = levelStep A (levelList A l) (2 ^ l) (A.length - 2 ^ (l + 1) + 1) := by
    obtain ⟨m, rfl⟩ : ∃ m, l = m + 1 := ⟨l - 1, by omega⟩
    simp [levelList, pow2]
  have hMi : (levelsFlat A l).length - (A.length - 2 ^ l + 1)
      = levelStart A.length l := by
    rw [levelsFlat_length A hA, levelStart_succ _ _ hl]
    simp [levelLen]
  have hlen1 : levelLen A.length l = A.length - 2 ^ l + 1 := rfl
  simp only [flatAppendStep, hMi]
  have hp2 : A.length - 2 * 2 ^ l + 1 = A.length - 2 ^ (l + 1) + 1 := by
    omega
  rw [hp2]
  conv_rhs => rw [levelsFlat_succ]
  congr 1
  rw [hstep, levelStep]
  apply List.map_congr_left
  intro a ha
  have halen : a < A.length - 2 ^ (l + 1) + 1 := List.mem_range.mp ha
  have hi1 : a < levelLen A.length l := by
    rw [hlen1]
    omega
  have hi2 : a + 2 ^ l < levelLen A.length l := by
    rw [hlen1]
    omega
  have hg1 := levelsFlat_getD A hA l l a hl le_rfl hi1
  have hg2 := levelsFlat_getD A hA l l (a + 2 ^ l) hl le_rfl hi2
  have hassoc : levelStart A.length l + a + 2 ^ l
      = levelStart A.length l + (a + 2 ^ l) := by
    omega
  simp only [hassoc, hg1, hg2]

lemma flatLoop_levelsFlat (A : List ℕ) (hA : 2 ≤ A.length) :
    ∀ steps l, 1 ≤ l → 2 ^ (l + steps) ≤ A.length →
      flatLoop A A.length steps (2 ^ l) (levelsFlat A l) = levelsFlat A (l + steps) := by
  intro steps
  induction steps with
  | zero =>
    intro l _ _
    rw [flatLoop, Nat.add_zero]
  | succ steps ih =>
    intro l hl hbound
    have h1 : 2 ^ (l + 1) ≤ A.length := by
      refine le_trans (Nat.pow_le_pow_right (by omega) (by omega)) hbound
    rw [flatLoop, flatAppendStep_levelsFlat A hA l hl h1]
    have h2 : (2 : ℕ) * 2 ^ l = 2 ^ (l + 1) := by
      rw [pow_succ]
      omega
    rw [h2]
    have h3 := ih (l + 1) (by omega) (by
      have : l + 1 + steps = l + (steps + 1) := by omega
      rw [this]
      exact hbound)
    rw [h3]
    congr 1
    omega

lemma level1_eq_levelsFlat_one (A : List ℕ) : level1 A = levelsFlat A 1 := by
  simp [levelsFlat, levelList]

lemma preprocess_eq_levelsFlat (A : List ℕ) (h3 : 3 ≤ A.length) :
    preprocess_sparse_table A = levelsFlat A (lower_log2 A.length) := by
  rw [preprocess_sparse_table, preprocess_sparse_table_from, if_pos h3]
  simp only [List.nil_append]
  have hn : (level1 A).length + 1 = A.length := by
    simp [level1]
    omega
  rw [hn]
  have hlog1 : 1 ≤ lower_log2 A.length := by
    rw [le_lower_log2_iff (by omega)]
    omega
  have hcall := flatLoop_levelsFlat A (by omega) (lower_log2 A.length - 1) 1 le_rfl
    (by
      have : 1 + (lower_log2 A.length - 1) = lower_log2 A.length := by omega
      rw [this]
      exact pow_lower_log2_le (by omega))
  rw [level1_eq_levelsFlat_one]
  have h21 : (2 : ℕ) ^ 1 = 2 := by norm_num
  rw [← h21, hcall]
  congr 1
  omega

/-! ## `translate_sparse_table` computes the flat offsets -/

lemma levelStart_closed (n : ℕ) :
    ∀ l, 1 ≤ l → 2 ^ l ≤ n → levelStart n l + (2 ^ l - l - 1) = (l - 1) * n := by
  intro l
  induction l with
  | zero => omega
  | succ l ih =>
    intro _ h
    by_cases hl : 1 ≤ l
    · have h2l : 2 ^ l ≤ n := by
        refine le_trans (Nat.pow_le_pow_right (by omega) (by omega)) h
      have hIH := ih hl h2l
      rw [levelStart_succ n l hl]
      have hmul : (l + 1 - 1) * n = (l - 1) * n + n := by
        obtain ⟨m, rfl⟩ : ∃ m, l = m + 1 := ⟨l - 1, by omega⟩
        simp [Nat.succ_mul]
      have hpow : 2 ^ (l + 1) = 2 ^ l + 2 ^ l := by
        rw [pow_succ]
        omega
      have hlt2 : l < 2 ^ l := Nat.lt_two_pow l
      simp only [levelLen]
      omega
    · have hl0 : l = 0 := by omega
      subst hl0
      simp [levelStart]

lemma translate_eq_levelStart (i l n : ℕ) (hl : 1 ≤ l) (h : 2 ^ l ≤ n) :
    translate_sparse_table i l n = levelStart n l + i := by
  rcases eq_or_lt_of_le hl with heq | hlt
  · rw [← heq, translate_sparse_table, if_pos rfl, levelStart_one]
    omega
  · rw [translate_sparse_table, if_neg (by omega)]
    have hc := levelStart_closed n l (by omega) h
    have hlt2 : l < 2 ^ l := Nat.lt_two_pow l
    simp only [pow2]
    omega

/-- Every valid flat entry equals the corresponding 2D level entry, read at
the `translate_sparse_table` offset. -/
lemma preprocess_getD (A : List ℕ) (h3 : 3 ≤ A.length) (l i : ℕ) (hl : 1 ≤ l)
    (hlog : l ≤ lower_log2 A.length) (hi : i + 2 ^ l ≤ A.length) :
    (preprocess_sparse_table A).getD (translate_sparse_table i l A.length) 0
      = (levelList A l).getD i 0 := by
  have h2l : 2 ^ l ≤ A.length := (le_lower_log2_iff (by omega)).mp hlog
  rw [preprocess_eq_levelsFlat A h3, translate_eq_levelStart i l A.length hl h2l]
  exact levelsFlat_getD A (by omega) (lower_log2 A.length) l i hl hlog
    (by simp only [levelLen]; omega)

/-- Row `k` of the built 2D table is `levelList A k`. -/
lemma index_preprocess_row (A : List ℕ) (h3 : 3 ≤ A.length) (k : ℕ) (hk : 1 ≤ k)
    (hlog : k ≤ lower_log2 A.length) :
    (index_preprocess_sparse_table A).getD (k - 1) [] = levelList A k := by
  rw [index_preprocess_sparse_table, if_pos (by omega)]
  rw [List.getD_eq_getElem?_getD, List.getElem?_map]
  rw [List.getElem?_range' 1 1 (by omega)]
  have : 1 + 1 * (k - 1) = k := by omega
  rw [this]
  rfl

/-- For non-singleton valid ranges, the flat query and the spec's two-window
rule on the 2D table read the same two entries and compare them the same
way, so they agree. -/
lemma query_sparse_table_eq_spec (A : List ℕ) (h3 : 3 ≤ A.length) (i j : ℕ)
    (hij : i < j) (hj : j < A.length) :
    query_sparse_table A i j A.length (preprocess_sparse_table A)
      = index_query_spec A i j (index_preprocess_sparse_table A) := by
  have hr2 : 2 ≤ j - i + 1 := by omega
  have hrn : j - i + 1 ≤ A.length := by omega
  have hk1 : 1 ≤ lower_log2 (j - i + 1) := by
    rw [le_lower_log2_iff (by omega)]
    omega
  have hkr : 2 ^ lower_log2 (j - i + 1) ≤ j - i + 1 := pow_lower_log2_le (by omega)
  have hklog : lower_log2 (j - i + 1) ≤ lower_log2 A.length := by
    rw [le_lower_log2_iff (by omega)]
    omega
  have hne : ¬ i = j := by omega
  rw [query_sparse_table, if_neg hne, index_query_spec, if_neg hne]
  have hx := preprocess_getD A h3 (lower_log2 (j - i + 1)) i hk1 hklog (by omega)
  have hy := preprocess_getD A h3 (lower_log2 (j - i + 1))
    (j + 1 - pow2 (lower_log2 (j - i + 1))) hk1 hklog (by simp only [pow2]; omega)
  have hrow := index_preprocess_row A h3 (lower_log2 (j - i + 1)) hk1 hklog
  simp only [hx, hy, hrow]

/-- `flatLoop` only ever appends to the table it is given. -/
lemma flatLoop_append_only (A : List ℕ) (n : ℕ) :
    ∀ steps bl2 M, ∃ s, flatLoop A n steps bl2 M = M ++ s := by
  intro steps
  induction steps with
  | zero =>
    intro bl2 M
    exact ⟨[], (List.append_nil M).symm⟩
  | succ steps ih =>
    intro bl2 M
    obtain ⟨s, hs⟩ := ih (2 * bl2) (flatAppendStep A n bl2 M)
    exact ⟨_, by
      rw [flatLoop, hs]
      simp only [flatAppendStep]
      rw [List.append_assoc]⟩

/-- `preprocess_sparse_table` only ever appends to the output container. -/
lemma preprocess_from_append_only (A M0 : List ℕ) :
    ∃ s, preprocess_sparse_table_from A M0 = M0 ++ s := by
  rw [preprocess_sparse_table_from]
  by_cases h3 : 3 ≤ A.length
  · rw [if_pos h3]
    obtain ⟨s, hs⟩ := flatLoop_append_only A ((M0 ++ level1 A).length + 1)
      (lower_log2 ((M0 ++ level1 A).length + 1) - 1) 2 (M0 ++ level1 A)
    refine ⟨level1 A ++ s, ?_⟩
    rw [hs, List.append_assoc]
  · rw [if_neg h3]
    exact ⟨[], (List.append_nil M0).symm⟩

end GraphAlgorithms

section Claims
open GraphAlgorithms

/-- Claim C3: after building a sparse table over `A` with `|A| = n ≥ 3`, for
every level `j` from 1 to `⌊log2 n⌋` and every position `i ∈ [0, n - 2^j]`,
the table entry `M[j][i]` identifies the leftmost minimum element of the
window `A[i .. i + 2^j - 1]`; and for `j ≥ 2` the entry equals the argmin of
the two level-`(j-1)` entries at `i` and `i + 2^(j-1)`, with the left
operand winning ties. -/
theorem sparse_table_level_entries_leftmost_min (A : List ℕ) (h3 : 3 ≤ A.length)
    (j : ℕ) (hj1 : 1 ≤ j) (hj2 : j ≤ lower_log2 A.length) (i : ℕ)
    (hi : i ≤ A.length - 2 ^ j) :
    IsLeftmostMin A i (i + 2 ^ j - 1) (tableEntry (index_preprocess_sparse_table A) j i) ∧
      (2 ≤ j →
        tableEntry (index_preprocess_sparse_table A) j i =
          if A.getD (tableEntry (index_preprocess_sparse_table A) (j - 1) (i + 2 ^ (j - 1))) 0
              < A.getD (tableEntry (index_preprocess_sparse_table A) (j - 1) i) 0
          then tableEntry (index_preprocess_sparse_table A) (j - 1) (i + 2 ^ (j - 1))
          else tableEntry (index_preprocess_sparse_table A) (j - 1) i) := by
  have hn0 : A.length ≠ 0 := by omega
  have h2j : 2 ^ j ≤ A.length := (le_lower_log2_iff hn0).mp hj2
  have hrow := index_preprocess_row A h3 j hj1 hj2
  have hi2 : i + 2 ^ j ≤ A.length := by omega
  constructor
  · simp only [tableEntry, hrow]
    exact levelList_isLeftmostMin A j hj1 i hi2
  · intro hj'
    obtain ⟨m, rfl⟩ : ∃ m, j = m + 2 := ⟨j - 2, by omega⟩
    have hrowm : (index_preprocess_sparse_table A).getD (m + 1) [] = levelList A (m + 2) :=
      hrow
    have hrow2m : (index_preprocess_sparse_table A).getD m [] = levelList A (m + 1) :=
      index_preprocess_row A h3 (m + 1) (by omega) (by omega)
    simp only [tableEntry]
    rw [show m + 2 - 1 = m + 1 from rfl, show m + 1 - 1 = m from rfl, hrowm, hrow2m]
    have hlen : i < A.length - pow2 (m + 2) + 1 := by
      simp only [pow2]
      omega
    rw [levelList, levelStep, getD_range_map hlen]
    simp [pow2]

/-- Witness for C3 at `A = [5, 2, 8]`, level 1, position 0. -/
theorem sparse_table_level_entries_leftmost_min_witness :
    (3 ≤ ([5, 2, 8] : List ℕ).length ∧ (1 : ℕ) ≤ 1 ∧
        1 ≤ lower_log2 ([5, 2, 8] : List ℕ).length ∧
        (0 : ℕ) ≤ ([5, 2, 8] : List ℕ).length - 2 ^ 1) ∧
      (IsLeftmostMin [5, 2, 8] 0 (0 + 2 ^ 1 - 1)
          (tableEntry (index_preprocess_sparse_table [5, 2, 8]) 1 0) ∧
        (2 ≤ 1 →
          tableEntry (index_preprocess_sparse_table [5, 2, 8]) 1 0 =
            if ([5, 2, 8] : List ℕ).getD
                  (tableEntry (index_preprocess_sparse_table [5, 2, 8]) (1 - 1) (0 + 2 ^ (1 - 1))) 0
                < ([5, 2, 8] : List ℕ).getD
                  (tableEntry (index_preprocess_sparse_table [5, 2, 8]) (1 - 1) 0) 0
            then tableEntry (index_preprocess_sparse_table [5, 2, 8]) (1 - 1) (0 + 2 ^ (1 - 1))
            else tableEntry (index_preprocess_sparse_table [5, 2, 8]) (1 - 1) 0)) :=
  ⟨by decide,
    sparse_table_level_entries_leftmost_min [5, 2, 8] (by decide) 1 (by decide) (by decide)
      0 (by decide)⟩

/-- Claim C5 (amended): for `n ≥ 3`, `translate_sparse_table i lvl n` is the
flat position of the level-by-level builder's entry for logical pair
`(i, lvl)` - the flat table read there equals the 2D table entry
`M[lvl][i]` - and for every valid range with `i < j` the flat-layout query
and the spec's two-window query on the 2D table return identical results.
(At `i = j` the flat query instead returns the table entry at flat position
`i`, so singleton ranges differ; see the counterexample.) -/
theorem flat_layout_refines_2d (A : List ℕ) (h3 : 3 ≤ A.length) :
    (∀ lvl i, 1 ≤ lvl → lvl ≤ lower_log2 A.length → i + 2 ^ lvl ≤ A.length →
        (preprocess_sparse_table A).getD (translate_sparse_table i lvl A.length) 0
          = tableEntry (index_preprocess_sparse_table A) lvl i) ∧
      ∀ i j, i < j → j < A.length →
        query_sparse_table A i j A.length (preprocess_sparse_table A)
          = index_query_spec A i j (index_preprocess_sparse_table A) := by
  constructor
  · intro lvl i h1 h2 hbound
    rw [preprocess_getD A h3 lvl i h1 h2 hbound]
    simp only [tableEntry, index_preprocess_row A h3 lvl h1 h2]
  · exact query_sparse_table_eq_spec A h3

/-- Witness for C5 at `A = [5, 2, 8]`. -/
theorem flat_layout_refines_2d_witness :
    3 ≤ ([5, 2, 8] : List ℕ).length ∧
      ((∀ lvl i, 1 ≤ lvl → lvl ≤ lower_log2 ([5, 2, 8] : List ℕ).length →
          i + 2 ^ lvl ≤ ([5, 2, 8] : List ℕ).length →
          (preprocess_sparse_table [5, 2, 8]).getD
              (translate_sparse_table i lvl ([5, 2, 8] : List ℕ).length) 0
            = tableEntry (index_preprocess_sparse_table [5, 2, 8]) lvl i) ∧
        ∀ i j, i < j → j < ([5, 2, 8] : List ℕ).length →
          query_sparse_table [5, 2, 8] i j ([5, 2, 8] : List ℕ).length
              (preprocess_sparse_table [5, 2, 8])
            = index_query_spec [5, 2, 8] i j (index_preprocess_sparse_table [5, 2, 8])) :=
  ⟨by decide, flat_layout_refines_2d [5, 2, 8] (by decide)⟩

/-- Counterexample to C5 as stated: on a singleton range the two layouts
answer differently - the flat query returns the table entry stored at flat
position `i` (here the level-1 argmin `1`), the 2D query returns `i = 0`. -/
theorem flat_2d_singleton_query_mismatch :
    query_sparse_table [2, 1, 3] 0 0 3 (preprocess_sparse_table [2, 1, 3]) = 1 ∧
      index_query_sparse_table 0 0 [2, 1, 3] (index_preprocess_sparse_table [2, 1, 3]) = 0 ∧
      (1 : ℕ) ≠ 0 := by
  decide

/-- Claim C8: with fewer than three input elements (including `n = 2`), both
sparse-table builders leave the table empty. -/
theorem small_input_empty_table (A : List ℕ) (h : A.length < 3) :
    index_preprocess_sparse_table A = [] ∧ preprocess_sparse_table A = [] := by
  refine ⟨?_, ?_⟩
  · rw [index_preprocess_sparse_table, if_neg (by omega)]
  · rw [preprocess_sparse_table, preprocess_sparse_table_from, if_neg (by omega)]

/-- Witness for C8 at `A = [1, 2]` (`n = 2`). -/
theorem small_input_empty_table_witness :
    ([1, 2] : List ℕ).length < 3 ∧
      (index_preprocess_sparse_table [1, 2] = [] ∧ preprocess_sparse_table [1, 2] = []) :=
  ⟨by decide, small_input_empty_table [1, 2] (by decide)⟩

/-- Claim C10: `preprocess_sparse_table` and `lca_preprocess` only append to
their output containers - whatever content the caller passes in survives,
unmodified, in front of the newly produced entries. -/
theorem builders_only_append (A M0 : List ℕ) (t : RTree) (E0 L0 N0 : List ℕ) :
    (∃ s, preprocess_sparse_table_from A M0 = M0 ++ s) ∧
      ∃ e l m, lca_preprocess_from t E0 L0 N0 = (E0 ++ e, L0 ++ l, N0 ++ m) := by
  refine ⟨preprocess_from_append_only A M0, ?_⟩
  obtain ⟨s, hs⟩ := preprocess_from_append_only (L0 ++ depthList 0 t) N0
  refine ⟨eulerTour t, depthList 0 t, s, ?_⟩
  simp only [lca_preprocess_from]
  rw [hs]

/-- Claim C2 fails on the code: on `A` of length 10 (all `5`s then two `0`s)
the 2D query over `[0, 7]` reads `M[3][0 + (8 - 2·3)] = M[3][2]`, whose
window `A[2..9]` leaks past `j = 7`, and returns index 8 - outside the
queried range (the code computes `2 * k` where the covering argument needs
`2^k`). -/
theorem index_query_escapes_range :
    index_query_sparse_table 0 7 [5, 5, 5, 5, 5, 5, 5, 5, 0, 0]
        (index_preprocess_sparse_table [5, 5, 5, 5, 5, 5, 5, 5, 0, 0]) = 8 ∧
      ¬ (8 : ℕ) ≤ 7 := by
  decide

/-- Claim C9 fails on the code: for `n = 8`, querying `[0, 7]` has `r = 8`,
`k = 3`, and the second read is at position `i + (r - 2k) = 2` of level 3,
whose only valid position is `0` (`n - 2^k = 0`; the stored row has a single
entry). -/
theorem index_query_y_index_out_of_bounds :
    index_query_y_index 0 7 = 2 ∧
      lower_log2 (7 - 0 + 1) = 3 ∧
      ([7, 6, 5, 4, 3, 2, 1, 0] : List ℕ).length - 2 ^ 3 = 0 ∧
      ((index_preprocess_sparse_table [7, 6, 5, 4, 3, 2, 1, 0]).getD 2 []).length = 1 ∧
      ¬ index_query_y_index 0 7 ≤ ([7, 6, 5, 4, 3, 2, 1, 0] : List ℕ).length - 2 ^ 3 := by
  decide

/-- Claim C4 fails on the code for the flat layout: on `A = [9, 4, 7, 1]`
the flat table is `[1, 1, 3, 3]` and `query(0, 0)` returns the consulted
entry `table[0] = 1` instead of `0`; the 2D `index_query_sparse_table`
does return `0` without consulting the table. -/
theorem singleton_query_consults_table :
    query_sparse_table [9, 4, 7, 1] 0 0 4 (preprocess_sparse_table [9, 4, 7, 1]) = 1 ∧
      index_query_sparse_table 0 0 [9, 4, 7, 1] (index_preprocess_sparse_table [9, 4, 7, 1]) = 0 ∧
      preprocess_sparse_table [9, 4, 7, 1] = [1, 1, 3, 3] := by
  decide

/-- Claim C6 fails on the code: on input `[0, 1]` the counted overload
outputs both first-occurrence positions `[0, 1]`, but the iterator-range
overload advances its iterator twice per pass and outputs only `[0]`,
skipping the element at position 1 entirely. -/
theorem representative_element_overloads_diverge :
    representative_element [0, 1] = [0, 1] ∧
      representative_element_range [0, 1] = [0] := by
  decide

/-- Claim C1 fails on the code: preprocessing the spec's concrete tree
(edges 0→1, 0→2, 1→3, 1→4) reproduces the spec's expected Euler tour and
depth sequence, yet `lca_query(4, 4)` answers 1 (the parent of leaf 4)
instead of the lowest common ancestor 4, because the flat query's `i == j`
branch returns the table entry at position `R[4]` rather than `R[4]`
itself. -/
theorem lca_query_fails_on_equal_leaves :
    (lca_preprocess specTree).E = [0, 1, 3, 1, 4, 1, 0, 2, 0] ∧
      (lca_preprocess specTree).L = [0, 1, 2, 1, 2, 1, 0, 1, 0] ∧
      lca_query 4 4 (lca_preprocess specTree).E (lca_preprocess specTree).L
        (lca_preprocess specTree).R (lca_preprocess specTree).M = 1 ∧
      (1 : ℕ) ≠ 4 := by
  decide

/-- Claim C7 fails on the code: `lca_query(3, 3)` on the spec's concrete
tree reaches the `i == j` shortcut at `i = j = R[3] = 2`, but that shortcut
returns the flat table entry `M[1][2]` (tour position 3, vertex 1), not
`R[3]`, so the query answers the parent 1 instead of 3. -/
theorem lca_query_self_returns_parent_for_leaf :
    (lca_preprocess specTree).R 3 = 2 ∧
      lca_query 3 3 (lca_preprocess specTree).E (lca_preprocess specTree).L
        (lca_preprocess specTree).R (lca_preprocess specTree).M = 1 ∧
      (1 : ℕ) ≠ 3 := by
  decide

end Claims
